import Mathlib

/-!
Verification of the `ggql` GraphQL request-builder library.

The Go source (`ggql.go`) defines a `Request` struct whose `Headers` and
`Variables` fields are Go maps.  Go maps are reference values: a method with a
value receiver copies the struct but the copy still points at the same
underlying map storage.  To capture this aliasing faithfully we model the
program state as a heap of maps.  A `Request` holds references (heap indices)
into two heaps: one of header maps (`String → String`) and one of variable
maps (`String → Json`).  A `none` reference models a nil Go map (the zero
value of a map field).  Go maps are modelled as association lists with
last-write-wins insertion; a write to a nil map panics (modelled as `none`
results of the stepping functions), while `delete` on a nil map and ranging
over an empty map are no-ops, exactly as in Go.

`Do` is modelled as a function of the request data together with an abstract
transport collaborator; it returns the outcome and the list of observable
effects (JSON encoding, HTTP send) in order, so that "no network I/O" is the
statement that the effect trace is empty.  `http.Header.Set` canonicalises
its key with `textproto.CanonicalMIMEHeaderKey`, which is embedded below.
-/

namespace GGql

/-- JSON values, the model of Go values that `encoding/json` can marshal.
Variable values of type `any` are modelled as already-serializable JSON. -/
inductive Json where
  | null
  | bool (b : Bool)
  | num (n : Int)
  | str (s : String)
  | arr (elems : List Json)
  | obj (fields : List (String × Json))

/-- Go map write `m[k] = v`: replace the binding of `k` if present
(last write wins), otherwise append it. -/
def mapSet {α : Type} : List (String × α) → String → α → List (String × α)
  | [], k, v => [(k, v)]
  | (k', v') :: rest, k, v =>
    if k' = k then (k, v) :: rest else (k', v') :: mapSet rest k v

/-- Go map read `m[k]`: the value bound to `k`, if any. -/
def mapGet {α : Type} : List (String × α) → String → Option α
  | [], _ => none
  | (k', v) :: rest, k => if k' = k then some v else mapGet rest k

/-- Go `delete(m, k)`: remove the binding of `k` if present. -/
def mapDel {α : Type} (m : List (String × α)) (k : String) : List (String × α) :=
  m.filter (fun p => !(p.1 == k))

/-- The mutable store: a heap of header maps and a heap of variable maps.
Go map values are references into these heaps. -/
structure State where
  hheap : List (List (String × String))
  vheap : List (List (String × Json))

/-- `Request` from `ggql.go`: endpoint and query text are plain value fields;
`Headers` and `Variables` are map references (`none` = nil map). -/
structure Request where
  Endpoint : String
  Request : String
  Headers : Option Nat
  Variables : Option Nat

/-- The zero value of the Go struct `Request`: empty strings and nil maps. -/
def zeroRequest : Request :=
  { Endpoint := "", Request := "", Headers := none, Variables := none }

/-- `NewRequest` from `ggql.go`: allocate two fresh empty maps and return a
request pointing at them. -/
def NewRequest (endpoint : String) (s : State) : State × Request :=
  ({ hheap := s.hheap ++ [[]], vheap := s.vheap ++ [[]] },
   { Endpoint := endpoint, Request := "",
     Headers := some s.hheap.length, Variables := some s.vheap.length })

/-- The header map a request currently references, if its reference is
non-nil and valid. -/
def headersMapOf (s : State) (r : Request) : Option (List (String × String)) :=
  match r.Headers with
  | none => none
  | some i => s.hheap[i]?

/-- The variable map a request currently references. -/
def varsMapOf (s : State) (r : Request) : Option (List (String × Json)) :=
  match r.Variables with
  | none => none
  | some i => s.vheap[i]?

/-- Read one header through a request: `request.Headers[key]`. -/
def readHeader (s : State) (r : Request) (k : String) : Option String :=
  (headersMapOf s r).bind (fun m => mapGet m k)

/-- Read one variable through a request: `request.Variables[key]`. -/
def readVar (s : State) (r : Request) (k : String) : Option Json :=
  (varsMapOf s r).bind (fun m => mapGet m k)

/-- `AddHeader` from `ggql.go`: `request.Headers[key] = value; return request`.
A write to a nil map panics (`none`). The returned request is the receiver
copy, still holding the same map reference. -/
def AddHeader (k v : String) (s : State) (r : Request) : Option (State × Request) :=
  match r.Headers with
  | none => none
  | some i =>
    some ({ s with hheap := s.hheap.set i (mapSet (s.hheap[i]?.getD []) k v) }, r)

/-- `AddHeaders` from `ggql.go`: range over the given map (modelled as an
enumeration list) writing each pair. Ranging over an empty map performs no
write, so it does not panic even on a nil map. -/
def AddHeaders (hs : List (String × String)) (s : State) (r : Request) :
    Option (State × Request) :=
  match r.Headers with
  | none => if hs.isEmpty then some (s, r) else none
  | some i =>
    some ({ s with
      hheap := s.hheap.set i
        (hs.foldl (fun m p => mapSet m p.1 p.2) (s.hheap[i]?.getD [])) }, r)

/-- `RemoveHeaders` from `ggql.go`: `delete` each named key. `delete` on a
nil map is a no-op in Go, never a panic. -/
def RemoveHeaders (ks : List String) (s : State) (r : Request) :
    Option (State × Request) :=
  match r.Headers with
  | none => some (s, r)
  | some i =>
    some ({ s with
      hheap := s.hheap.set i (ks.foldl (fun m k => mapDel m k) (s.hheap[i]?.getD [])) }, r)

/-- `ClearHeaders` from `ggql.go`: `request.Headers = make(map[string]string)`,
a fresh empty map; the old map is not touched. -/
def ClearHeaders (s : State) (r : Request) : Option (State × Request) :=
  some ({ s with hheap := s.hheap ++ [[]] }, { r with Headers := some s.hheap.length })

/-- `AddVariable` from `ggql.go`: `request.Variables[key] = value`. -/
def AddVariable (k : String) (v : Json) (s : State) (r : Request) :
    Option (State × Request) :=
  match r.Variables with
  | none => none
  | some i =>
    some ({ s with vheap := s.vheap.set i (mapSet (s.vheap[i]?.getD []) k v) }, r)

/-- `AddVariables` from `ggql.go`: range over the given map writing each pair. -/
def AddVariables (vs : List (String × Json)) (s : State) (r : Request) :
    Option (State × Request) :=
  match r.Variables with
  | none => if vs.isEmpty then some (s, r) else none
  | some i =>
    some ({ s with
      vheap := s.vheap.set i
        (vs.foldl (fun m p => mapSet m p.1 p.2) (s.vheap[i]?.getD [])) }, r)

/-- `RemoveVariables` from `ggql.go`: `delete` each named key. -/
def RemoveVariables (ks : List String) (s : State) (r : Request) :
    Option (State × Request) :=
  match r.Variables with
  | none => some (s, r)
  | some i =>
    some ({ s with
      vheap := s.vheap.set i (ks.foldl (fun m k => mapDel m k) (s.vheap[i]?.getD [])) }, r)

/-- `ClearVariables` from `ggql.go`: a fresh empty map. -/
def ClearVariables (s : State) (r : Request) : Option (State × Request) :=
  some ({ s with vheap := s.vheap ++ [[]] }, { r with Variables := some s.vheap.length })

/-- `Query` from `ggql.go`: `request.Request = query; return request`. A plain
value-field update on the receiver copy; the heap is untouched. -/
def Query (q : String) (s : State) (r : Request) : Option (State × Request) :=
  some (s, { r with Request := q })

/-- One configuration call of the builder API. -/
inductive Op where
  | addHeader (k v : String)
  | addHeaders (hs : List (String × String))
  | removeHeaders (ks : List String)
  | clearHeaders
  | addVariable (k : String) (v : Json)
  | addVariables (vs : List (String × Json))
  | removeVariables (ks : List String)
  | clearVariables
  | query (q : String)

/-- Apply one configuration call. -/
def step : Op → State → Request → Option (State × Request)
  | .addHeader k v => AddHeader k v
  | .addHeaders hs => AddHeaders hs
  | .removeHeaders ks => RemoveHeaders ks
  | .clearHeaders => ClearHeaders
  | .addVariable k v => AddVariable k v
  | .addVariables vs => AddVariables vs
  | .removeVariables ks => RemoveVariables ks
  | .clearVariables => ClearVariables
  | .query q => Query q

/-- Apply a chain of configuration calls to one builder. -/
def run : List Op → State → Request → Option (State × Request)
  | [], s, r => some (s, r)
  | op :: ops, s, r =>
    match step op s r with
    | none => none
    | some (s', r') => run ops s' r'

/-- Apply configuration calls to any members of a growing family of builders:
each trace entry picks a builder already in the family (an out-of-range index
is skipped) and appends the builder the call returns. This models "the builder
or any builder derived from it". -/
def runFamily : List (Nat × Op) → State → List Request → Option (State × List Request)
  | [], s, fam => some (s, fam)
  | (i, op) :: t, s, fam =>
    match fam[i]? with
    | none => runFamily t s fam
    | some r =>
      match step op s r with
      | none => none
      | some (s', r') => runFamily t s' (fam ++ [r'])

/-- `validHeaderFieldByte` from Go `net/textproto`: HTTP token characters
(letters, digits, and the fifteen listed punctuation bytes, given here by
code point to keep the table explicit). -/
def validHeaderFieldByte (c : Char) : Bool :=
  let n := c.toNat
  (48 ≤ n && n ≤ 57) || (97 ≤ n && n ≤ 122) || (65 ≤ n && n ≤ 90) ||
  n == 33 || n == 35 || n == 36 || n == 37 || n == 38 || n == 39 ||
  n == 42 || n == 43 || n == 45 || n == 46 || n == 94 || n == 95 ||
  n == 96 || n == 124 || n == 126

/-- Uppercase an ASCII letter, as Go does byte-wise. -/
def toUpperAscii (c : Char) : Char :=
  if 97 ≤ c.toNat && c.toNat ≤ 122 then Char.ofNat (c.toNat - 32) else c

/-- Lowercase an ASCII letter, as Go does byte-wise. -/
def toLowerAscii (c : Char) : Char :=
  if 65 ≤ c.toNat && c.toNat ≤ 90 then Char.ofNat (c.toNat + 32) else c

/-- The per-byte loop of Go `canonicalMIMEHeaderKey`: uppercase the first
letter and every letter following a hyphen, lowercase the rest. -/
def canonChars : Bool → List Char → List Char
  | _, [] => []
  | upper, c :: cs =>
    let c' := if upper then toUpperAscii c else toLowerAscii c
    c' :: canonChars (c' = '-') cs

/-- `CanonicalMIMEHeaderKey` from Go `net/textproto`: if every byte is a
valid header-field byte, canonicalise the case; otherwise return the key
unchanged. -/
def canonicalMIMEHeaderKey (s : String) : String :=
  if s.data.all validHeaderFieldByte then ⟨canonChars true s.data⟩ else s

/-- `http.Header.Set`: store the value under the canonicalised key,
replacing any previous value. -/
def setHeader (m : List (String × String)) (k v : String) : List (String × String) :=
  mapSet m (canonicalMIMEHeaderKey k) v

/-- The headers `Do` sends: starting from the empty header map of a fresh
`http.Request`, first `Set("Content-Type", "application/json")`, then `Set`
for every configured header, in the order the map enumeration `hlist` gives. -/
def applyHeaders (hlist : List (String × String)) : List (String × String) :=
  hlist.foldl (fun m p => setHeader m p.1 p.2) (setHeader [] "Content-Type" "application/json")

/-- Insert a field into a key-sorted field list. -/
def insertField (p : String × Json) : List (String × Json) → List (String × Json)
  | [] => [p]
  | q :: qs => if p.1 ≤ q.1 then p :: q :: qs else q :: insertField p qs

/-- Sort object fields by key, as Go `encoding/json` does when marshalling a
map. -/
def sortFields : List (String × Json) → List (String × Json)
  | [] => []
  | p :: ps => insertField p (sortFields ps)

/-- The JSON value `encoding/json` produces for the `content` struct: an
object whose fields, in struct order, are `query` (the query text) and
`variables` (the marshalled variables map). -/
def encodeContent (q : String) (vars : List (String × Json)) : Json :=
  .obj [("query", .str q), ("variables", .obj (sortFields vars))]

/-- What the HTTP collaborator does with one attempted request. -/
inductive SendOutcome where
  | sendErr
  | readErr
  | ok (body : String)

/-- The abstract transport collaborator: whether `http.NewRequest` fails for
an endpoint, and what sending a request yields. -/
structure Transport where
  newReqFails : String → Bool
  send : String → List (String × String) → Json → SendOutcome

/-- Observable effects of `Do`, in order. -/
inductive Effect where
  | jsonEncode (body : Json)
  | httpSend (endpoint : String) (headers : List (String × String)) (body : Json)

/-- The result of `Do`: a parsed gjson result (modelled as the raw body
text) or an error message. -/
inductive DoOutcome where
  | ok (res : String)
  | err (msg : String)

/-- `Do` from `ggql.go`, over the request data and an abstract transport.
`q`, `e`, `vars`, `hlist` are the request's query text, endpoint, variables
map and an enumeration of its headers map. Returns the outcome together with
the trace of encoding and network effects. An empty query errors out before
anything else; otherwise the content struct is encoded, the request is
created, headers are applied, and the request is sent. -/
def DoModel (q e : String) (vars : List (String × Json))
    (hlist : List (String × String)) (tr : Transport) : DoOutcome × List Effect :=
  if q = "" then (.err "no query/mutation provided", [])
  else
    let body := encodeContent q vars
    if tr.newReqFails e then (.err "creating request", [.jsonEncode body])
    else
      let hdrs := applyHeaders hlist
      match tr.send e hdrs body with
      | .sendErr => (.err "sending request", [.jsonEncode body, .httpSend e hdrs body])
      | .readErr => (.err "reading response", [.jsonEncode body, .httpSend e hdrs body])
      | .ok b => (.ok b, [.jsonEncode body, .httpSend e hdrs body])

/-- The value of the final `Content-Type` header contributed by the user's
headers: the last enumerated entry whose key canonicalises to
`Content-Type`, if any. -/
def lastContentType : List (String × String) → Option String
  | [] => none
  | p :: t =>
    (lastContentType t) <|>
      (if canonicalMIMEHeaderKey p.1 = "Content-Type" then some p.2 else none)

/-! ### Association-list map lemmas -/

theorem mapGet_mapSet_self {α : Type} (m : List (String × α)) (k : String) (v : α) :
    mapGet (mapSet m k v) k = some v := by
  induction m with
  | nil => simp [mapSet, mapGet]
  | cons p rest ih =>
    obtain ⟨k', v'⟩ := p
    by_cases h : k' = k
    · simp [mapSet, h, mapGet]
    · simp [mapSet, h, mapGet, ih]

theorem mapGet_mapSet_ne {α : Type} (m : List (String × α)) (k k' : String) (v : α)
    (h : k' ≠ k) : mapGet (mapSet m k v) k' = mapGet m k' := by
  have h' : ¬ k = k' := fun hh => h hh.symm
  induction m with
  | nil => simp [mapSet, mapGet, h']
  | cons p rest ih =>
    obtain ⟨k'', v'⟩ := p
    by_cases h2 : k'' = k
    · subst h2
      simp [mapSet, mapGet, h']
    · simp only [mapSet, if_neg h2, mapGet]
      by_cases h3 : k'' = k'
      · simp [h3]
      · simp [h3, ih]

theorem mapGet_eq_none_of_not_mem {α : Type} (m : List (String × α)) (k : String)
    (h : k ∉ m.map Prod.fst) : mapGet m k = none := by
  induction m with
  | nil => rfl
  | cons p rest ih =>
    obtain ⟨a, b⟩ := p
    simp only [List.map_cons, List.mem_cons] at h
    push_neg at h
    have h1 : ¬ a = k := fun hh => h.1 hh.symm
    simp [mapGet, h1, ih h.2]

theorem mapDel_of_get_none {α : Type} (m : List (String × α)) (k : String)
    (h : mapGet m k = none) : mapDel m k = m := by
  induction m with
  | nil => rfl
  | cons p rest ih =>
    obtain ⟨k', v⟩ := p
    by_cases h2 : k' = k
    · simp [mapGet, h2] at h
    · simp only [mapGet, if_neg h2] at h
      have hb : (!((k', v).1 == k)) = true := by simp [h2]
      simp only [mapDel, List.filter_cons, hb, if_true]
      exact congrArg (List.cons (k', v)) (ih h)

theorem mapGet_foldl_mapSet {α : Type} (H : List (String × α)) (m : List (String × α))
    (k : String) (hn : (H.map Prod.fst).Nodup) :
    mapGet (H.foldl (fun m p => mapSet m p.1 p.2) m) k = (mapGet H k).or (mapGet m k) := by
  induction H generalizing m with
  | nil => simp [mapGet]
  | cons p t ih =>
    obtain ⟨a, b⟩ := p
    simp only [List.map_cons, List.nodup_cons] at hn
    rw [List.foldl_cons, ih _ hn.2]
    by_cases h : a = k
    · subst h
      rw [mapGet_eq_none_of_not_mem t a hn.1, mapGet_mapSet_self]
      simp [mapGet]
    · rw [mapGet_mapSet_ne _ _ _ _ (fun hh => h hh.symm)]
      simp [mapGet, h]

theorem set_of_getElem?_eq {α : Type} (l : List α) (i : Nat) (x : α)
    (h : l[i]? = some x) : l.set i x = l := by
  induction l generalizing i with
  | nil => simp at h
  | cons a t ih =>
    cases i with
    | zero =>
      simp only [List.getElem?_cons_zero, Option.some.injEq] at h
      simp [h]
    | succ n =>
      simp only [List.getElem?_cons_succ] at h
      simp [ih n h]

/-! ### Header canonicalisation and `applyHeaders` lemmas -/

theorem mapGet_foldl_setHeader (hlist : List (String × String))
    (m : List (String × String)) :
    mapGet (hlist.foldl (fun m p => setHeader m p.1 p.2) m) "Content-Type" =
      (lastContentType hlist).or (mapGet m "Content-Type") := by
  induction hlist generalizing m with
  | nil => simp [lastContentType]
  | cons p t ih =>
    rw [List.foldl_cons, ih]
    show _ = ((lastContentType t) <|> _).or _
    by_cases h : canonicalMIMEHeaderKey p.1 = "Content-Type"
    · simp only [setHeader, h, if_pos h]
      rw [mapGet_mapSet_self]
      cases lastContentType t <;> simp [Option.or]
    · simp only [setHeader, if_neg h]
      rw [mapGet_mapSet_ne _ _ _ _ (fun hh => h hh.symm)]
      cases lastContentType t <;> simp [Option.or]

theorem mapGet_applyHeaders_contentType (hlist : List (String × String)) :
    mapGet (applyHeaders hlist) "Content-Type" =
      some ((lastContentType hlist).getD "application/json") := by
  rw [applyHeaders, mapGet_foldl_setHeader]
  have hbase : mapGet (setHeader [] "Content-Type" "application/json") "Content-Type" =
      some "application/json" := by rfl
  rw [hbase]
  cases lastContentType hlist <;> simp [Option.or]

/-! ### Validity: reachable builders have live, in-range map references -/

/-- A request whose two map references are non-nil and point into the heap:
the shape every builder reachable from `NewRequest` has. -/
def validReq (s : State) (r : Request) : Prop :=
  (∃ i, r.Headers = some i ∧ i < s.hheap.length) ∧
  (∃ j, r.Variables = some j ∧ j < s.vheap.length)

theorem step_total_of_valid (op : Op) (s : State) (r : Request) (h : validReq s r) :
    ∃ s' r', step op s r = some (s', r') ∧ validReq s' r' := by
  obtain ⟨⟨i, hi, hil⟩, ⟨j, hj, hjl⟩⟩ := h
  cases op with
  | addHeader k v =>
    refine ⟨{ s with hheap := s.hheap.set i (mapSet (s.hheap[i]?.getD []) k v) }, r, ?_, ?_⟩
    · simp [step, AddHeader, hi]
    · exact ⟨⟨i, hi, by simpa using hil⟩, ⟨j, hj, hjl⟩⟩
  | addHeaders hs =>
    refine ⟨{ s with hheap := s.hheap.set i (hs.foldl (fun m p => mapSet m p.1 p.2) (s.hheap[i]?.getD [])) }, r, ?_, ?_⟩
    · simp [step, AddHeaders, hi]
    · exact ⟨⟨i, hi, by simpa using hil⟩, ⟨j, hj, hjl⟩⟩
  | removeHeaders ks =>
    refine ⟨{ s with hheap := s.hheap.set i (ks.foldl (fun m k => mapDel m k) (s.hheap[i]?.getD [])) }, r, ?_, ?_⟩
    · simp [step, RemoveHeaders, hi]
    · exact ⟨⟨i, hi, by simpa using hil⟩, ⟨j, hj, hjl⟩⟩
  | clearHeaders =>
    refine ⟨{ s with hheap := s.hheap ++ [[]] }, { r with Headers := some s.hheap.length }, rfl, ?_⟩
    exact ⟨⟨s.hheap.length, rfl, by simp⟩, ⟨j, hj, hjl⟩⟩
  | addVariable k v =>
    refine ⟨{ s with vheap := s.vheap.set j (mapSet (s.vheap[j]?.getD []) k v) }, r, ?_, ?_⟩
    · simp [step, AddVariable, hj]
    · exact ⟨⟨i, hi, hil⟩, ⟨j, hj, by simpa using hjl⟩⟩
  | addVariables vs =>
    refine ⟨{ s with vheap := s.vheap.set j (vs.foldl (fun m p => mapSet m p.1 p.2) (s.vheap[j]?.getD [])) }, r, ?_, ?_⟩
    · simp [step, AddVariables, hj]
    · exact ⟨⟨i, hi, hil⟩, ⟨j, hj, by simpa using hjl⟩⟩
  | removeVariables ks =>
    refine ⟨{ s with vheap := s.vheap.set j (ks.foldl (fun m k => mapDel m k) (s.vheap[j]?.getD [])) }, r, ?_, ?_⟩
    · simp [step, RemoveVariables, hj]
    · exact ⟨⟨i, hi, hil⟩, ⟨j, hj, by simpa using hjl⟩⟩
  | clearVariables =>
    refine ⟨{ s with vheap := s.vheap ++ [[]] }, { r with Variables := some s.vheap.length }, rfl, ?_⟩
    exact ⟨⟨i, hi, hil⟩, ⟨s.vheap.length, rfl, by simp⟩⟩
  | query q =>
    exact ⟨s, { r with Request := q }, rfl, ⟨⟨i, hi, hil⟩, ⟨j, hj, hjl⟩⟩⟩

theorem run_total_of_valid (ops : List Op) (s : State) (r : Request) (h : validReq s r) :
    ∃ s' r', run ops s r = some (s', r') ∧ validReq s' r' := by
  induction ops generalizing s r with
  | nil => exact ⟨s, r, rfl, h⟩
  | cons op t ih =>
    obtain ⟨s1, r1, hs, hv⟩ := step_total_of_valid op s r h
    obtain ⟨s', r', hrun, hv'⟩ := ih s1 r1 hv
    exact ⟨s', r', by simp [run, hs, hrun], hv'⟩

/-! ### Frame property: a step touches only the maps its receiver references -/

theorem step_frame (op : Op) (s s' : State) (r r' : Request)
    (h : step op s r = some (s', r')) :
    s.hheap.length ≤ s'.hheap.length ∧ s.vheap.length ≤ s'.vheap.length ∧
    (r'.Headers = r.Headers ∨ r'.Headers = some s.hheap.length) ∧
    (r'.Variables = r.Variables ∨ r'.Variables = some s.vheap.length) ∧
    (∀ j, j < s.hheap.length → r.Headers ≠ some j → s'.hheap[j]? = s.hheap[j]?) ∧
    (∀ j, j < s.vheap.length → r.Variables ≠ some j → s'.vheap[j]? = s.vheap[j]?) := by
  cases op with
  | addHeader k v =>
    obtain ⟨i, hr⟩ : ∃ i, r.Headers = some i := by
      cases hrr : r.Headers
      · simp [step, AddHeader, hrr] at h
      · exact ⟨_, rfl⟩
    simp only [step, AddHeader, hr, Option.some.injEq, Prod.mk.injEq] at h
    obtain ⟨h1, h2⟩ := h
    subst h1; subst h2
    refine ⟨by simp, le_refl _, Or.inl rfl, Or.inl rfl, ?_, fun _ _ _ => rfl⟩
    intro j hjl hne
    exact List.getElem?_set_ne (fun he => hne (hr.trans (congrArg some he)))
  | addHeaders hs =>
    cases hn : r.Headers with
    | none =>
      have he : hs.isEmpty := by
        by_contra hc
        simp [step, AddHeaders, hn, hc] at h
      simp only [step, AddHeaders, hn, he, if_true, Option.some.injEq, Prod.mk.injEq] at h
      obtain ⟨h1, h2⟩ := h
      subst h1; subst h2
      exact ⟨le_refl _, le_refl _, Or.inl hn, Or.inl rfl,
        fun _ _ _ => rfl, fun _ _ _ => rfl⟩
    | some i =>
      simp only [step, AddHeaders, hn, Option.some.injEq, Prod.mk.injEq] at h
      obtain ⟨h1, h2⟩ := h
      subst h1; subst h2
      refine ⟨by simp, le_refl _, Or.inl hn, Or.inl rfl, ?_, fun _ _ _ => rfl⟩
      intro j hjl hne
      exact List.getElem?_set_ne (fun he2 => hne (congrArg some he2))
  | removeHeaders ks =>
    cases hn : r.Headers with
    | none =>
      simp only [step, RemoveHeaders, hn, Option.some.injEq, Prod.mk.injEq] at h
      obtain ⟨h1, h2⟩ := h
      subst h1; subst h2
      exact ⟨le_refl _, le_refl _, Or.inl hn, Or.inl rfl,
        fun _ _ _ => rfl, fun _ _ _ => rfl⟩
    | some i =>
      simp only [step, RemoveHeaders, hn, Option.some.injEq, Prod.mk.injEq] at h
      obtain ⟨h1, h2⟩ := h
      subst h1; subst h2
      refine ⟨by simp, le_refl _, Or.inl hn, Or.inl rfl, ?_, fun _ _ _ => rfl⟩
      intro j hjl hne
      exact List.getElem?_set_ne (fun he2 => hne (congrArg some he2))
  | clearHeaders =>
    simp only [step, ClearHeaders, Option.some.injEq, Prod.mk.injEq] at h
    obtain ⟨h1, h2⟩ := h
    subst h1; subst h2
    refine ⟨by simp, le_refl _, Or.inr rfl, Or.inl rfl, ?_, fun _ _ _ => rfl⟩
    intro j hjl _
    exact List.getElem?_append_left hjl
  | addVariable k v =>
    obtain ⟨i, hr⟩ : ∃ i, r.Variables = some i := by
      cases hrr : r.Variables
      · simp [step, AddVariable, hrr] at h
      · exact ⟨_, rfl⟩
    simp only [step, AddVariable, hr, Option.some.injEq, Prod.mk.injEq] at h
    obtain ⟨h1, h2⟩ := h
    subst h1; subst h2
    refine ⟨le_refl _, by simp, Or.inl rfl, Or.inl rfl, fun _ _ _ => rfl, ?_⟩
    intro j hjl hne
    exact List.getElem?_set_ne (fun he => hne (hr.trans (congrArg some he)))
  | addVariables vs =>
    cases hn : r.Variables with
    | none =>
      have he : vs.isEmpty := by
        by_contra hc
        simp [step, AddVariables, hn, hc] at h
      simp only [step, AddVariables, hn, he, if_true, Option.some.injEq, Prod.mk.injEq] at h
      obtain ⟨h1, h2⟩ := h
      subst h1; subst h2
      exact ⟨le_refl _, le_refl _, Or.inl rfl, Or.inl hn,
        fun _ _ _ => rfl, fun _ _ _ => rfl⟩
    | some i =>
      simp only [step, AddVariables, hn, Option.some.injEq, Prod.mk.injEq] at h
      obtain ⟨h1, h2⟩ := h
      subst h1; subst h2
      refine ⟨le_refl _, by simp, Or.inl rfl, Or.inl hn, fun _ _ _ => rfl, ?_⟩
      intro j hjl hne
      exact List.getElem?_set_ne (fun he2 => hne (congrArg some he2))
  | removeVariables ks =>
    cases hn : r.Variables with
    | none =>
      simp only [step, RemoveVariables, hn, Option.some.injEq, Prod.mk.injEq] at h
      obtain ⟨h1, h2⟩ := h
      subst h1; subst h2
      exact ⟨le_refl _, le_refl _, Or.inl rfl, Or.inl hn,
        fun _ _ _ => rfl, fun _ _ _ => rfl⟩
    | some i =>
      simp only [step, RemoveVariables, hn, Option.some.injEq, Prod.mk.injEq] at h
      obtain ⟨h1, h2⟩ := h
      subst h1; subst h2
      refine ⟨le_refl _, by simp, Or.inl rfl, Or.inl hn, fun _ _ _ => rfl, ?_⟩
      intro j hjl hne
      exact List.getElem?_set_ne (fun he2 => hne (congrArg some he2))
  | clearVariables =>
    simp only [step, ClearVariables, Option.some.injEq, Prod.mk.injEq] at h
    obtain ⟨h1, h2⟩ := h
    subst h1; subst h2
    refine ⟨le_refl _, by simp, Or.inl rfl, Or.inr rfl, fun _ _ _ => rfl, ?_⟩
    intro j hjl _
    exact List.getElem?_append_left hjl
  | query q =>
    simp only [step, Query, Option.some.injEq, Prod.mk.injEq] at h
    obtain ⟨h1, h2⟩ := h
    subst h1; subst h2
    exact ⟨le_refl _, le_refl _, Or.inl rfl, Or.inl rfl,
      fun _ _ _ => rfl, fun _ _ _ => rfl⟩

/-- No member of the builder family holds a reference to the foreign header
map `rb` or the foreign variable map `rv`. -/
def untouched (rb rv : Nat) (fam : List Request) : Prop :=
  ∀ r ∈ fam, r.Headers ≠ some rb ∧ r.Variables ≠ some rv

theorem runFamily_frame (t : List (Nat × Op)) (s s' : State) (fam fam' : List Request)
    (rb rv : Nat) (hrb : rb < s.hheap.length) (hrv : rv < s.vheap.length)
    (hu : untouched rb rv fam) (h : runFamily t s fam = some (s', fam')) :
    s'.hheap[rb]? = s.hheap[rb]? ∧ s'.vheap[rv]? = s.vheap[rv]? := by
  induction t generalizing s fam hrb hrv hu with
  | nil =>
    simp only [runFamily, Option.some.injEq, Prod.mk.injEq] at h
    rw [← h.1]
    exact ⟨rfl, rfl⟩
  | cons e t ih =>
    obtain ⟨i, op⟩ := e
    cases hf : fam[i]? with
    | none =>
      simp only [runFamily, hf] at h
      exact ih s fam hrb hrv hu h
    | some r =>
      cases hs : step op s r with
      | none =>
        simp [runFamily, hf, hs] at h
      | some p =>
        obtain ⟨s1, r1⟩ := p
        simp only [runFamily, hf, hs] at h
        have hm := hu r (List.getElem?_mem hf)
        obtain ⟨hfr1, hfr2, hor1, hor2, hp1, hp2⟩ := step_frame op s s1 r r1 hs
        have hb1 : s1.hheap[rb]? = s.hheap[rb]? := hp1 rb hrb hm.1
        have hb2 : s1.vheap[rv]? = s.vheap[rv]? := hp2 rv hrv hm.2
        have hrb1 : rb < s1.hheap.length := lt_of_lt_of_le hrb hfr1
        have hrv1 : rv < s1.vheap.length := lt_of_lt_of_le hrv hfr2
        have hu1 : untouched rb rv (fam ++ [r1]) := by
          intro x hx
          rcases List.mem_append.mp hx with hx | hx
          · exact hu x hx
          · have hx1 : x = r1 := by simpa using hx
            subst hx1
            constructor
            · rcases hor1 with h9 | h9
              · rw [h9]; exact hm.1
              · rw [h9]
                intro hc
                have hc2 : s.hheap.length = rb := by injection hc
                omega
            · rcases hor2 with h9 | h9
              · rw [h9]; exact hm.2
              · rw [h9]
                intro hc
                have hc2 : s.vheap.length = rv := by injection hc
                omega
        obtain ⟨e1, e2⟩ := ih s1 (fam ++ [r1]) hrb1 hrv1 hu1 h
        exact ⟨e1.trans hb1, e2.trans hb2⟩

/-- Interleaved configuration of two builder families: each trace entry is
tagged with the side it configures (`false` = the first builder's family,
`true` = the second's), picks a builder already in that family (out-of-range
indices are skipped) and appends the builder the call returns.  This models
two independently constructed builders both being configured, in any
interleaving, each together with its derived builders. -/
def runFamily2 : List (Bool × Nat × Op) → State → List Request → List Request →
    Option (State × List Request × List Request)
  | [], s, famA, famB => some (s, famA, famB)
  | (false, i, op) :: t, s, famA, famB =>
    match famA[i]? with
    | none => runFamily2 t s famA famB
    | some r =>
      match step op s r with
      | none => none
      | some (s', r') => runFamily2 t s' (famA ++ [r']) famB
  | (true, i, op) :: t, s, famA, famB =>
    match famB[i]? with
    | none => runFamily2 t s famA famB
    | some r =>
      match step op s r with
      | none => none
      | some (s', r') => runFamily2 t s' famA (famB ++ [r'])

theorem runFamily2_append (t1 t2 : List (Bool × Nat × Op)) (s : State)
    (famA famB : List Request) :
    runFamily2 (t1 ++ t2) s famA famB =
      match runFamily2 t1 s famA famB with
      | none => none
      | some (s', famA', famB') => runFamily2 t2 s' famA' famB' := by
  induction t1 generalizing s famA famB with
  | nil => rfl
  | cons e t ih =>
    obtain ⟨side, i, op⟩ := e
    cases side
    · cases hf : famA[i]? with
      | none =>
        simp only [List.cons_append, runFamily2, hf]
        exact ih s famA famB
      | some r =>
        cases hs : step op s r with
        | none => simp [List.cons_append, runFamily2, hf, hs]
        | some p =>
          obtain ⟨s1, r1'⟩ := p
          simp only [List.cons_append, runFamily2, hf, hs]
          exact ih s1 (famA ++ [r1']) famB
    · cases hf : famB[i]? with
      | none =>
        simp only [List.cons_append, runFamily2, hf]
        exact ih s famA famB
      | some r =>
        cases hs : step op s r with
        | none => simp [List.cons_append, runFamily2, hf, hs]
        | some p =>
          obtain ⟨s1, r1'⟩ := p
          simp only [List.cons_append, runFamily2, hf, hs]
          exact ih s1 famA (famB ++ [r1'])

/-- Invariant for interleaved two-family runs: the four heap cells the two
original builders reference are in range, no member of the first family
holds the second builder's references, and no member of the second family
holds the first builder's. -/
def inv2 (rb1 rv1 rb2 rv2 : Nat) (s : State) (famA famB : List Request) : Prop :=
  rb1 < s.hheap.length ∧ rv1 < s.vheap.length ∧
  rb2 < s.hheap.length ∧ rv2 < s.vheap.length ∧
  (∀ x ∈ famA, x.Headers ≠ some rb2 ∧ x.Variables ≠ some rv2) ∧
  (∀ x ∈ famB, x.Headers ≠ some rb1 ∧ x.Variables ≠ some rv1)

theorem runFamily2_inv (rb1 rv1 rb2 rv2 : Nat) (t : List (Bool × Nat × Op))
    (s s' : State) (famA famB famA' famB' : List Request)
    (hinv : inv2 rb1 rv1 rb2 rv2 s famA famB)
    (h : runFamily2 t s famA famB = some (s', famA', famB')) :
    inv2 rb1 rv1 rb2 rv2 s' famA' famB' := by
  induction t generalizing s famA famB hinv with
  | nil =>
    simp only [runFamily2, Option.some.injEq, Prod.mk.injEq] at h
    obtain ⟨h1, h2, h3⟩ := h
    subst h1; subst h2; subst h3
    exact hinv
  | cons e t ih =>
    obtain ⟨side, i, op⟩ := e
    obtain ⟨k1, k2, k3, k4, kA, kB⟩ := hinv
    cases side
    · cases hf : famA[i]? with
      | none =>
        simp only [runFamily2, hf] at h
        exact ih s famA famB ⟨k1, k2, k3, k4, kA, kB⟩ h
      | some r =>
        cases hs : step op s r with
        | none => simp [runFamily2, hf, hs] at h
        | some p =>
          obtain ⟨s1, r1'⟩ := p
          simp only [runFamily2, hf, hs] at h
          obtain ⟨m1, m2, mor1, mor2, -, -⟩ := step_frame op s s1 r r1' hs
          refine ih s1 (famA ++ [r1']) famB
            ⟨lt_of_lt_of_le k1 m1, lt_of_lt_of_le k2 m2,
             lt_of_lt_of_le k3 m1, lt_of_lt_of_le k4 m2, ?_, kB⟩ h
          intro x hx
          rcases List.mem_append.mp hx with hx | hx
          · exact kA x hx
          · rw [List.mem_singleton] at hx
            subst hx
            have hr := kA r (List.getElem?_mem hf)
            constructor
            · rcases mor1 with h9 | h9
              · rw [h9]; exact hr.1
              · rw [h9]
                intro hc
                have hc2 : s.hheap.length = rb2 := by injection hc
                omega
            · rcases mor2 with h9 | h9
              · rw [h9]; exact hr.2
              · rw [h9]
                intro hc
                have hc2 : s.vheap.length = rv2 := by injection hc
                omega
    · cases hf : famB[i]? with
      | none =>
        simp only [runFamily2, hf] at h
        exact ih s famA famB ⟨k1, k2, k3, k4, kA, kB⟩ h
      | some r =>
        cases hs : step op s r with
        | none => simp [runFamily2, hf, hs] at h
        | some p =>
          obtain ⟨s1, r1'⟩ := p
          simp only [runFamily2, hf, hs] at h
          obtain ⟨m1, m2, mor1, mor2, -, -⟩ := step_frame op s s1 r r1' hs
          refine ih s1 famA (famB ++ [r1'])
            ⟨lt_of_lt_of_le k1 m1, lt_of_lt_of_le k2 m2,
             lt_of_lt_of_le k3 m1, lt_of_lt_of_le k4 m2, kA, ?_⟩ h
          intro x hx
          rcases List.mem_append.mp hx with hx | hx
          · exact kB x hx
          · rw [List.mem_singleton] at hx
            subst hx
            have hr := kB r (List.getElem?_mem hf)
            constructor
            · rcases mor1 with h9 | h9
              · rw [h9]; exact hr.1
              · rw [h9]
                intro hc
                have hc2 : s.hheap.length = rb1 := by injection hc
                omega
            · rcases mor2 with h9 | h9
              · rw [h9]; exact hr.2
              · rw [h9]
                intro hc
                have hc2 : s.vheap.length = rv1 := by injection hc
                omega

theorem runFamily2_stepA_frame (rb2 rv2 i : Nat) (op : Op)
    (s s' : State) (famA famB famA' famB' : List Request)
    (hrb : rb2 < s.hheap.length) (hrv : rv2 < s.vheap.length)
    (hA : ∀ x ∈ famA, x.Headers ≠ some rb2 ∧ x.Variables ≠ some rv2)
    (h : runFamily2 [(false, i, op)] s famA famB = some (s', famA', famB')) :
    s'.hheap[rb2]? = s.hheap[rb2]? ∧ s'.vheap[rv2]? = s.vheap[rv2]? := by
  cases hf : famA[i]? with
  | none =>
    simp only [runFamily2, hf, Option.some.injEq, Prod.mk.injEq] at h
    rw [← h.1]
    exact ⟨rfl, rfl⟩
  | some r =>
    cases hs : step op s r with
    | none => simp [runFamily2, hf, hs] at h
    | some p =>
      obtain ⟨s1, r1'⟩ := p
      simp only [runFamily2, hf, hs, Option.some.injEq, Prod.mk.injEq] at h
      obtain ⟨-, -, -, -, hp1, hp2⟩ := step_frame op s s1 r r1' hs
      have hr := hA r (List.getElem?_mem hf)
      rw [← h.1]
      exact ⟨hp1 rb2 hrb hr.1, hp2 rv2 hrv hr.2⟩

theorem runFamily2_stepB_frame (rb1 rv1 i : Nat) (op : Op)
    (s s' : State) (famA famB famA' famB' : List Request)
    (hrb : rb1 < s.hheap.length) (hrv : rv1 < s.vheap.length)
    (hB : ∀ x ∈ famB, x.Headers ≠ some rb1 ∧ x.Variables ≠ some rv1)
    (h : runFamily2 [(true, i, op)] s famA famB = some (s', famA', famB')) :
    s'.hheap[rb1]? = s.hheap[rb1]? ∧ s'.vheap[rv1]? = s.vheap[rv1]? := by
  cases hf : famB[i]? with
  | none =>
    simp only [runFamily2, hf, Option.some.injEq, Prod.mk.injEq] at h
    rw [← h.1]
    exact ⟨rfl, rfl⟩
  | some r =>
    cases hs : step op s r with
    | none => simp [runFamily2, hf, hs] at h
    | some p =>
      obtain ⟨s1, r1'⟩ := p
      simp only [runFamily2, hf, hs, Option.some.injEq, Prod.mk.injEq] at h
      obtain ⟨-, -, -, -, hp1, hp2⟩ := step_frame op s s1 r r1' hs
      have hr := hB r (List.getElem?_mem hf)
      rw [← h.1]
      exact ⟨hp1 rb1 hrb hr.1, hp2 rv1 hrv hr.2⟩

/-! ### Claim theorems -/

/-- C1: for every request, calling `Do` with empty query text returns the
error "no query/mutation provided" and performs no JSON encoding and no
network I/O: the effect trace is empty, whatever the endpoint, variables,
headers and transport are. -/
theorem do_empty_query_no_io (e : String) (vars : List (String × Json))
    (hlist : List (String × String)) (tr : Transport) :
    DoModel "" e vars hlist tr = (.err "no query/mutation provided", []) := rfl

/-- C2: for every request with non-empty query text, the body `Do` serializes
is a JSON object with exactly the two top-level fields `query` (the query
text) and `variables` (the variables map, possibly empty); concretely, for
query text `\x7b hello \x7d` and empty variables the body is structurally
`\x7b"query":"\x7b hello \x7d","variables":\x7b\x7d\x7d`. -/
theorem do_serializes_query_and_variables (q e : String) (vars : List (String × Json))
    (hlist : List (String × String)) (tr : Transport) (hq : q ≠ "") :
    (DoModel q e vars hlist tr).2.head? =
      some (.jsonEncode (Json.obj
        [("query", Json.str q), ("variables", Json.obj (sortFields vars))])) ∧
    encodeContent "\x7b hello \x7d" [] =
      Json.obj [("query", Json.str "\x7b hello \x7d"), ("variables", Json.obj [])] := by
  refine ⟨?_, rfl⟩
  simp only [DoModel, if_neg hq]
  by_cases hn : tr.newReqFails e
  · simp [hn, encodeContent]
  · simp only [hn, if_false]
    cases tr.send e (applyHeaders hlist) (encodeContent q vars) <;> simp [encodeContent]

theorem do_serializes_query_and_variables_witness :
    ("x" : String) ≠ "" ∧
    ((DoModel "x" "https://example.test/graphql" [] []
        { newReqFails := fun _ => false, send := fun _ _ _ => .sendErr }).2.head? =
      some (.jsonEncode (Json.obj
        [("query", Json.str "x"), ("variables", Json.obj (sortFields []))])) ∧
    encodeContent "\x7b hello \x7d" [] =
      Json.obj [("query", Json.str "\x7b hello \x7d"), ("variables", Json.obj [])]) :=
  ⟨by decide,
   do_serializes_query_and_variables "x" "https://example.test/graphql" [] []
     { newReqFails := fun _ => false, send := fun _ _ _ => .sendErr } (by decide)⟩

/-- C3 as stated is false on the code: `http.Header.Set` canonicalises its
key, so a configured header whose key is `content-type` (not literally
`Content-Type`) nevertheless overrides the default.  At the concrete header
map `[("content-type", "text/plain")]` no key is literally `Content-Type`,
yet the sent `Content-Type` header is `text/plain`, not `application/json`. -/
theorem do_headers_literal_key_counterexample :
    ¬ ((∀ p ∈ [(("content-type" : String), ("text/plain" : String))],
          p.1 ≠ "Content-Type") →
       mapGet (applyHeaders [("content-type", "text/plain")]) "Content-Type" =
         some "application/json") := by
  intro hclaim
  have h2 := hclaim (by decide)
  have h3 : mapGet (applyHeaders [("content-type", "text/plain")]) "Content-Type" =
      some "text/plain" := by decide
  rw [h3] at h2
  exact absurd h2 (by decide)

/-- C3 amended: `Do` applies headers in the order default-then-user (that is
the definition of `applyHeaders`, which `DoModel` sends), each applied with
`http.Header.Set`, which canonicalises its key; hence the sent `Content-Type`
is the caller's value whenever some configured key canonicalises to
`Content-Type` (the last such entry in enumeration order wins), and the
default `application/json` otherwise. -/
theorem do_headers_default_then_user_canonical (hlist : List (String × String)) :
    mapGet (applyHeaders hlist) "Content-Type" =
      some ((lastContentType hlist).getD "application/json") :=
  mapGet_applyHeaders_contentType hlist

/-- C4: `AddHeader` (resp. `AddVariable`) on a builder with live maps (as
built by `NewRequest`) succeeds, returns a builder holding the very same map
reference, and the write is visible when reading through the ORIGINAL
builder: the two builders share the underlying map. -/
theorem addHeader_addVariable_mutate_shared_map
    (s : State) (r : Request) (k v : String) (w : Json) (i j : Nat)
    (hh : r.Headers = some i) (hi : i < s.hheap.length)
    (hv : r.Variables = some j) (hj : j < s.vheap.length) :
    (∃ s2 r2, AddHeader k v s r = some (s2, r2) ∧ r2.Headers = r.Headers ∧
      readHeader s2 r k = some v) ∧
    (∃ s2 r2, AddVariable k w s r = some (s2, r2) ∧ r2.Variables = r.Variables ∧
      readVar s2 r k = some w) := by
  constructor
  · refine ⟨{ s with hheap := s.hheap.set i (mapSet (s.hheap[i]?.getD []) k v) }, r,
      ?_, rfl, ?_⟩
    · simp [AddHeader, hh]
    · simp only [readHeader, headersMapOf, hh]
      rw [List.getElem?_set_eq hi]
      simp [mapGet_mapSet_self]
  · refine ⟨{ s with vheap := s.vheap.set j (mapSet (s.vheap[j]?.getD []) k w) }, r,
      ?_, rfl, ?_⟩
    · simp [AddVariable, hv]
    · simp only [readVar, varsMapOf, hv]
      rw [List.getElem?_set_eq hj]
      simp [mapGet_mapSet_self]

theorem addHeader_addVariable_mutate_shared_map_witness :
    (∃ s2 r2, AddHeader "k" "v" ⟨[[]], [[]]⟩ ⟨"e", "", some 0, some 0⟩ = some (s2, r2) ∧
      r2.Headers = Request.Headers ⟨"e", "", some 0, some 0⟩ ∧
      readHeader s2 ⟨"e", "", some 0, some 0⟩ "k" = some "v") ∧
    (∃ s2 r2, AddVariable "k" .null ⟨[[]], [[]]⟩ ⟨"e", "", some 0, some 0⟩ = some (s2, r2) ∧
      r2.Variables = Request.Variables ⟨"e", "", some 0, some 0⟩ ∧
      readVar s2 ⟨"e", "", some 0, some 0⟩ "k" = some .null) :=
  addHeader_addVariable_mutate_shared_map ⟨[[]], [[]]⟩ ⟨"e", "", some 0, some 0⟩
    "k" "v" .null 0 0 rfl (by decide) rfl (by decide)

/-- C5: applying `AddHeaders H1` then `AddHeaders H2` to a builder whose
header map is empty yields the union of `H1` and `H2`, with `H2` winning on
key collisions (`H1`, `H2` are enumerations of Go maps, so their keys are
duplicate-free). -/
theorem AddHeaders_some (hs : List (String × String)) (s : State) (r : Request) (i : Nat)
    (hh : r.Headers = some i) :
    AddHeaders hs s r = some ({ s with
      hheap := s.hheap.set i (hs.foldl (fun m p => mapSet m p.1 p.2) (s.hheap[i]?.getD [])) },
      r) := by
  simp [AddHeaders, hh]

theorem addHeaders_twice_union
    (s : State) (r : Request) (i : Nat) (H1 H2 : List (String × String))
    (hh : r.Headers = some i) (hi : i < s.hheap.length) (hm : s.hheap[i]? = some [])
    (hn1 : (H1.map Prod.fst).Nodup) (hn2 : (H2.map Prod.fst).Nodup) :
    ∃ s1 r1 s2 r2, AddHeaders H1 s r = some (s1, r1) ∧
      AddHeaders H2 s1 r1 = some (s2, r2) ∧
      ∀ k, readHeader s2 r2 k = (mapGet H2 k).or (mapGet H1 k) := by
  have hbase : s.hheap[i]?.getD [] = [] := by rw [hm]; rfl
  refine ⟨_, _, _, _, AddHeaders_some H1 s r i hh, AddHeaders_some H2 _ r i hh, ?_⟩
  intro k
  have hM1 : (s.hheap.set i
      (H1.foldl (fun m p => mapSet m p.1 p.2) (s.hheap[i]?.getD [])))[i]? =
      some (H1.foldl (fun m p => mapSet m p.1 p.2) (s.hheap[i]?.getD [])) :=
    List.getElem?_set_eq hi
  simp only [readHeader, headersMapOf, hh]
  rw [List.getElem?_set_eq (by simpa using hi)]
  rw [hM1]
  simp only [Option.getD_some, Option.some_bind, hbase]
  rw [mapGet_foldl_mapSet H2 _ k hn2, mapGet_foldl_mapSet H1 _ k hn1]
  cases mapGet H2 k <;> cases mapGet H1 k <;> rfl

theorem addHeaders_twice_union_witness :
    0 < List.length ([[]] : List (List (String × String))) ∧
    ∃ s1 r1 s2 r2,
      AddHeaders [("a", "1"), ("b", "2")] ⟨[[]], [[]]⟩ ⟨"e", "", some 0, some 0⟩ =
        some (s1, r1) ∧
      AddHeaders [("b", "3")] s1 r1 = some (s2, r2) ∧
      ∀ k, readHeader s2 r2 k =
        (mapGet [("b", "3")] k).or (mapGet [("a", "1"), ("b", "2")] k) :=
  ⟨by decide,
   addHeaders_twice_union ⟨[[]], [[]]⟩ ⟨"e", "", some 0, some 0⟩ 0
     [("a", "1"), ("b", "2")] [("b", "3")] rfl (by decide) rfl (by decide) (by decide)⟩

/-- C6: removing a key that is absent from the header map (resp. variable
map) is a complete no-op: the call succeeds and neither the state nor the
builder changes, so every other key keeps its previous value. -/
theorem remove_absent_keys_noop
    (s : State) (r : Request) (k : String) (i j : Nat)
    (mh : List (String × String)) (mv : List (String × Json))
    (hh : r.Headers = some i) (hmh : s.hheap[i]? = some mh) (hgh : mapGet mh k = none)
    (hv : r.Variables = some j) (hmv : s.vheap[j]? = some mv) (hgv : mapGet mv k = none) :
    RemoveHeaders [k] s r = some (s, r) ∧ RemoveVariables [k] s r = some (s, r) := by
  constructor
  · simp only [RemoveHeaders, hh, hmh, Option.getD_some, List.foldl_cons, List.foldl_nil]
    rw [mapDel_of_get_none mh k hgh, set_of_getElem?_eq s.hheap i mh hmh]
  · simp only [RemoveVariables, hv, hmv, Option.getD_some, List.foldl_cons, List.foldl_nil]
    rw [mapDel_of_get_none mv k hgv, set_of_getElem?_eq s.vheap j mv hmv]

theorem remove_absent_keys_noop_witness :
    RemoveHeaders ["absent"] ⟨[[("a", "1")]], [[]]⟩ ⟨"e", "", some 0, some 0⟩ =
      some (⟨[[("a", "1")]], [[]]⟩, ⟨"e", "", some 0, some 0⟩) ∧
    RemoveVariables ["absent"] ⟨[[("a", "1")]], [[]]⟩ ⟨"e", "", some 0, some 0⟩ =
      some (⟨[[("a", "1")]], [[]]⟩, ⟨"e", "", some 0, some 0⟩) :=
  remove_absent_keys_noop ⟨[[("a", "1")]], [[]]⟩ ⟨"e", "", some 0, some 0⟩ "absent"
    0 0 [("a", "1")] [] rfl rfl rfl rfl rfl rfl

/-- C7: whatever the builder's prior header contents (even a nil map),
`ClearHeaders` followed by `AddHeader k v` yields a builder whose header map
is exactly the singleton containing `k ↦ v`. -/
theorem clearHeaders_then_addHeader_singleton (s : State) (r : Request) (k v : String) :
    ∃ s1 r1 s2 r2, ClearHeaders s r = some (s1, r1) ∧ AddHeader k v s1 r1 = some (s2, r2) ∧
      headersMapOf s2 r2 = some [(k, v)] := by
  refine ⟨_, _, _, _, rfl, rfl, ?_⟩
  have hlen : (s.hheap ++ [[]])[s.hheap.length]? = some [] :=
    List.getElem?_concat_length _ _
  simp only [headersMapOf]
  rw [hlen]
  rw [List.getElem?_set_eq (by simp)]
  simp [mapSet]

/-- C8: two builders constructed by separate `NewRequest` calls share no
backing storage, symmetrically in which of the two is configured — and even
when both are.  With `r1` constructed first and `r2` second: (i) any trace
of configuration calls applied to `r1` or to builders derived from it leaves
the headers and variables observed through `r2` unchanged; (ii) symmetrically
any trace applied to `r2`'s family leaves `r1`'s observation unchanged;
(iii) in an arbitrary interleaved trace configuring both families, every
single call applied to `r1`'s family (a `false` entry) preserves `r2`'s
observation across that call, and (iv) every call applied to `r2`'s family
(a `true` entry) preserves `r1`'s. -/
theorem independent_builders_isolated
    (s0 s1 s2 : State) (e1 e2 : String) (r1 r2 : Request)
    (h1 : NewRequest e1 s0 = (s1, r1))
    (h2 : NewRequest e2 s1 = (s2, r2)) :
    (∀ (t : List (Nat × Op)) (s3 : State) (fam : List Request),
      runFamily t s2 [r1] = some (s3, fam) →
      headersMapOf s3 r2 = headersMapOf s2 r2 ∧ varsMapOf s3 r2 = varsMapOf s2 r2) ∧
    (∀ (t : List (Nat × Op)) (s3 : State) (fam : List Request),
      runFamily t s2 [r2] = some (s3, fam) →
      headersMapOf s3 r1 = headersMapOf s2 r1 ∧ varsMapOf s3 r1 = varsMapOf s2 r1) ∧
    (∀ (t : List (Bool × Nat × Op)) (n i : Nat) (op : Op) (sB : State)
      (famA famB : List Request) (sA : State) (famA2 famB2 : List Request),
      t[n]? = some (false, i, op) →
      runFamily2 (t.take n) s2 [r1] [r2] = some (sB, famA, famB) →
      runFamily2 (t.take (n + 1)) s2 [r1] [r2] = some (sA, famA2, famB2) →
      headersMapOf sA r2 = headersMapOf sB r2 ∧ varsMapOf sA r2 = varsMapOf sB r2) ∧
    (∀ (t : List (Bool × Nat × Op)) (n i : Nat) (op : Op) (sB : State)
      (famA famB : List Request) (sA : State) (famA2 famB2 : List Request),
      t[n]? = some (true, i, op) →
      runFamily2 (t.take n) s2 [r1] [r2] = some (sB, famA, famB) →
      runFamily2 (t.take (n + 1)) s2 [r1] [r2] = some (sA, famA2, famB2) →
      headersMapOf sA r1 = headersMapOf sB r1 ∧ varsMapOf sA r1 = varsMapOf sB r1) := by
  simp only [NewRequest, Prod.mk.injEq] at h1 h2
  obtain ⟨hs1, ha⟩ := h1
  obtain ⟨hs2, hb⟩ := h2
  subst hs1
  subst ha
  subst hs2
  subst hb
  have hne1 : untouched (s0.hheap ++ [[]]).length (s0.vheap ++ [[]]).length
      [{ Endpoint := e1, Request := "", Headers := some s0.hheap.length,
         Variables := some s0.vheap.length }] := by
    intro x hx
    rw [List.mem_singleton] at hx
    subst hx
    refine ⟨fun hc => ?_, fun hc => ?_⟩
    · have hc2 : s0.hheap.length = (s0.hheap ++ [[]]).length := by injection hc
      simp at hc2
    · have hc2 : s0.vheap.length = (s0.vheap ++ [[]]).length := by injection hc
      simp at hc2
  have hne2 : untouched s0.hheap.length s0.vheap.length
      [{ Endpoint := e2, Request := "", Headers := some (s0.hheap ++ [[]]).length,
         Variables := some (s0.vheap ++ [[]]).length }] := by
    intro x hx
    rw [List.mem_singleton] at hx
    subst hx
    refine ⟨fun hc => ?_, fun hc => ?_⟩
    · have hc2 : (s0.hheap ++ [[]]).length = s0.hheap.length := by injection hc
      simp at hc2
    · have hc2 : (s0.vheap ++ [[]]).length = s0.vheap.length := by injection hc
      simp at hc2
  have hinv0 : inv2 s0.hheap.length s0.vheap.length
      (s0.hheap ++ [[]]).length (s0.vheap ++ [[]]).length
      { hheap := s0.hheap ++ [[]] ++ [[]], vheap := s0.vheap ++ [[]] ++ [[]] }
      [{ Endpoint := e1, Request := "", Headers := some s0.hheap.length,
         Variables := some s0.vheap.length }]
      [{ Endpoint := e2, Request := "", Headers := some (s0.hheap ++ [[]]).length,
         Variables := some (s0.vheap ++ [[]]).length }] :=
    ⟨by simp, by simp, by simp, by simp, hne1, hne2⟩
  refine ⟨?_, ?_, ?_, ?_⟩
  · intro t s3 fam h3
    exact runFamily_frame t _ s3 _ fam (s0.hheap ++ [[]]).length (s0.vheap ++ [[]]).length
      (by simp) (by simp) hne1 h3
  · intro t s3 fam h3
    exact runFamily_frame t _ s3 _ fam s0.hheap.length s0.vheap.length
      (by simp) (by simp) hne2 h3
  · intro t n i op sB famA famB sA famA2 famB2 hn hB hA
    have htake : t.take (n + 1) = t.take n ++ [(false, i, op)] := by
      rw [List.take_succ, hn]
      rfl
    rw [htake] at hA
    rw [runFamily2_append] at hA
    rw [hB] at hA
    obtain ⟨-, -, k3, k4, kA, -⟩ :=
      runFamily2_inv _ _ _ _ (t.take n) _ sB _ _ famA famB hinv0 hB
    exact runFamily2_stepA_frame _ _ i op sB sA famA famB famA2 famB2 k3 k4 kA hA
  · intro t n i op sB famA famB sA famA2 famB2 hn hB hA
    have htake : t.take (n + 1) = t.take n ++ [(true, i, op)] := by
      rw [List.take_succ, hn]
      rfl
    rw [htake] at hA
    rw [runFamily2_append] at hA
    rw [hB] at hA
    obtain ⟨k1, k2, -, -, -, kB⟩ :=
      runFamily2_inv _ _ _ _ (t.take n) _ sB _ _ famA famB hinv0 hB
    exact runFamily2_stepB_frame _ _ i op sB sA famA famB famA2 famB2 k1 k2 kB hA

theorem independent_builders_isolated_witness :
    (headersMapOf ⟨[[("k", "v")], []], [[], []]⟩ ⟨"b", "", some 1, some 1⟩ =
       headersMapOf ⟨[[], []], [[], []]⟩ ⟨"b", "", some 1, some 1⟩ ∧
     varsMapOf ⟨[[("k", "v")], []], [[], []]⟩ ⟨"b", "", some 1, some 1⟩ =
       varsMapOf ⟨[[], []], [[], []]⟩ ⟨"b", "", some 1, some 1⟩) ∧
    (headersMapOf ⟨[[], [("k", "v")]], [[], []]⟩ ⟨"a", "", some 0, some 0⟩ =
       headersMapOf ⟨[[], []], [[], []]⟩ ⟨"a", "", some 0, some 0⟩ ∧
     varsMapOf ⟨[[], [("k", "v")]], [[], []]⟩ ⟨"a", "", some 0, some 0⟩ =
       varsMapOf ⟨[[], []], [[], []]⟩ ⟨"a", "", some 0, some 0⟩) :=
  ⟨(independent_builders_isolated ⟨[], []⟩ ⟨[[]], [[]]⟩ ⟨[[], []], [[], []]⟩ "a" "b"
      ⟨"a", "", some 0, some 0⟩ ⟨"b", "", some 1, some 1⟩ rfl rfl).1
      [(0, .addHeader "k" "v")] ⟨[[("k", "v")], []], [[], []]⟩
      [⟨"a", "", some 0, some 0⟩, ⟨"a", "", some 0, some 0⟩] rfl,
   (independent_builders_isolated ⟨[], []⟩ ⟨[[]], [[]]⟩ ⟨[[], []], [[], []]⟩ "a" "b"
      ⟨"a", "", some 0, some 0⟩ ⟨"b", "", some 1, some 1⟩ rfl rfl).2.1
      [(0, .addHeader "k" "v")] ⟨[[], [("k", "v")]], [[], []]⟩
      [⟨"b", "", some 1, some 1⟩, ⟨"b", "", some 1, some 1⟩] rfl⟩

/-- C9: every builder reachable from `NewRequest` through any sequence of
configuration calls has live (non-nil, in-range) header and variable map
references, so no configuration call on it panics — in particular the four
Add operations always succeed; while on the zero-value `Request` (nil maps,
not built via `NewRequest`) the map write in `AddHeader` or `AddVariable`
panics. -/
theorem newRequest_valid_and_zero_value_panics (e : String) (s0 : State) (ops : List Op) :
    (∃ s' r', run ops (NewRequest e s0).1 (NewRequest e s0).2 = some (s', r') ∧
      validReq s' r') ∧
    (∀ (k v : String) (s : State), AddHeader k v s zeroRequest = none) ∧
    (∀ (k : String) (w : Json) (s : State), AddVariable k w s zeroRequest = none) := by
  refine ⟨?_, fun _ _ _ => rfl, fun _ _ _ => rfl⟩
  apply run_total_of_valid
  exact ⟨⟨s0.hheap.length, rfl, by simp [NewRequest]⟩,
    ⟨s0.vheap.length, rfl, by simp [NewRequest]⟩⟩

/-- C10: `Query` returns a builder whose query text is the given string and
whose endpoint and map references are those of the receiver, while the state
(hence everything observable through the original builder, its query text
included) is completely untouched: the query text is a plain value field,
not shared storage. -/
theorem query_sets_text_only (s : State) (r : Request) (q : String) :
    ∃ r2, Query q s r = some (s, r2) ∧ r2.Request = q ∧ r2.Endpoint = r.Endpoint ∧
      r2.Headers = r.Headers ∧ r2.Variables = r.Variables :=
  ⟨{ r with Request := q }, rfl, rfl, rfl, rfl, rfl⟩

end GGql
